import Mathlib

/-!
# Verification of the rimon-api catalog tool

Two parts of the repository are verified here:

* the storefront UI helpers in `ecommerce-site/src/App.js` (`sanitize`,
  `fuzzyScore`, and the cart operations `addToCart`, `removeFromCart`,
  `changeQty`), embedded directly from the JavaScript source; strings are
  modelled as `List Char` and JS numbers on the code paths used here as
  exact rationals;
* the snapshot store and delta-computation engine described by the spec
  (the Python core `main.py` is not part of the source tree; only the
  README and the spec describe it), modelled from the spec's words.
-/

namespace Rimon

/-! ## JS string primitives (App.js) -/

/-- The JavaScript whitespace class: the set matched by `\s` and removed by
`String.prototype.trim` (ASCII whitespace plus the Unicode space
characters). -/
def isJsWs (c : Char) : Bool :=
  c.val == 9 || c.val == 10 || c.val == 11 || c.val == 12 || c.val == 13 ||
  c.val == 32 || c.val == 0xa0 || c.val == 0x1680 ||
  (0x2000 ≤ c.val && c.val ≤ 0x200a) ||
  c.val == 0x2028 || c.val == 0x2029 || c.val == 0x202f || c.val == 0x205f ||
  c.val == 0x3000 || c.val == 0xfeff

/-- `str.trim()`: remove leading and trailing whitespace. -/
def jsTrim (l : List Char) : List Char :=
  ((l.dropWhile isJsWs).reverse.dropWhile isJsWs).reverse

/-- `str.replace(/^"+|"+$/g, '')`: remove the leading run and the trailing
run of double-quote characters. -/
def stripQuotes (l : List Char) : List Char :=
  ((l.dropWhile (· == '"')).reverse.dropWhile (· == '"')).reverse

/-- `str.replace(/\s+/g, ' ')`: every maximal run of whitespace becomes a
single space.  The recursion looks at adjacent pairs: inside a run only the
last character survives, as a space. -/
def collapseWs : List Char → List Char
  | [] => []
  | [c] => if isJsWs c then [' '] else [c]
  | c₁ :: c₂ :: rest =>
    if isJsWs c₁ && isJsWs c₂ then collapseWs (c₂ :: rest)
    else (if isJsWs c₁ then ' ' else c₁) :: collapseWs (c₂ :: rest)

/-- `str.toLowerCase()`, character by character (ASCII case mapping, which
covers the catalog's identifiers). -/
def jsToLower (l : List Char) : List Char := l.map Char.toLower

/-- `sanitize` from App.js lines 7–15: `!str` short-circuits the empty
string, then `trim`, quote stripping, whitespace collapsing and
lower-casing are applied in that order. -/
def sanitize (l : List Char) : List Char :=
  if l.isEmpty then []
  else jsToLower (collapseWs (stripQuotes (jsTrim l)))

/-- The normalization function exactly as the spec's claim words it: trim,
collapse internal whitespace runs to one space, lower-case — and nothing
else.  Stated for comparison with `sanitize`. -/
def normalizeSpec (l : List Char) : List Char :=
  jsToLower (collapseWs (jsTrim l))

/-- One-pass whitespace collapsing driven by a "previous character was
whitespace" flag; an alternative reading of `replace(/\s+/g, ' ')` used to
state the amended normalization claim independently of `collapseWs`. -/
def collapseGo : Bool → List Char → List Char
  | _, [] => []
  | prevWs, c :: cs =>
    if isJsWs c then
      (if prevWs then collapseGo true cs else ' ' :: collapseGo true cs)
    else c :: collapseGo false cs

/-- The amended normalization: trim, strip leading/trailing double quotes,
collapse whitespace (flag-based formulation), lower-case. -/
def normalizeSpecAmended (l : List Char) : List Char :=
  jsToLower (collapseGo false (stripQuotes (jsTrim l)))

/-! ## Fuzzy search scoring (App.js lines 17–31) -/

/-- Exact score of `fuzzyScore`: the JS literal `1`. -/
def scoreExact : ℚ := 1

/-- Substring score of `fuzzyScore`: the JS literal `0.8` (modelled as the
exact rational 4/5). -/
def scoreIncludes : ℚ := Rat.mk' 4 5 (by decide) (by decide)

/-- In-order-characters score of `fuzzyScore`: the JS literal `0.5`. -/
def scoreSubseq : ℚ := Rat.mk' 1 2 (by decide) (by decide)

/-- The `for (let c of str) { if (c === query[i]) i++; if (i === query.length)
return 0.5; }` loop of `fuzzyScore`: greedy in-order matching of the query
characters, reporting success the moment the counter reaches the query
length. -/
def runScan (q : List Char) : Nat → List Char → Bool
  | _, [] => false
  | i, c :: cs =>
    let j := if q[i]? = some c then i + 1 else i
    if j = q.length then true else runScan q j cs

/-- `fuzzyScore` from App.js lines 17–31: 1 = exact, 0.8 = includes,
0.5 = all query chars appear in order, 0 = no match; empty `str` or
`query` is falsy and scores 0 immediately. -/
def fuzzyScore (str query : List Char) : ℚ :=
  if str.isEmpty || query.isEmpty then 0
  else
    let s := jsToLower str
    let q := jsToLower query
    if s = q then scoreExact
    else if q <:+: s then scoreIncludes
    else if runScan q 0 s then scoreSubseq
    else 0

/-! ## Cart operations (App.js lines 146–171) -/

/-- The product fields the cart code touches.  JS numbers on these code
paths are compared, never rounded, so they are modelled as exact
rationals. -/
structure Product where
  id : Int
  sku : String
  title : String
  finalPrice : ℚ
deriving DecidableEq, Repr

/-- A cart entry: `{...product, qty}` in the JS code. -/
structure CartItem where
  product : Product
  qty : Int
deriving DecidableEq, Repr

/-- `addToCart` (App.js lines 146–157): increment the quantity of an
existing entry, or append the product with quantity 1. -/
def addToCart (cart : List CartItem) (p : Product) : List CartItem :=
  if cart.any fun item => item.product.id == p.id then
    cart.map fun item =>
      if item.product.id == p.id then { item with qty := item.qty + 1 } else item
  else
    cart ++ [{ product := p, qty := 1 }]

/-- `removeFromCart` (App.js lines 159–161). -/
def removeFromCart (cart : List CartItem) (productId : Int) : List CartItem :=
  cart.filter fun item => item.product.id != productId

/-- `changeQty` (App.js lines 163–171): clamp the updated quantity of the
targeted entry at 1, then drop entries with non-positive quantity. -/
def changeQty (cart : List CartItem) (productId : Int) (delta : Int) : List CartItem :=
  (cart.map fun item =>
      if item.product.id == productId then { item with qty := max 1 (item.qty + delta) }
      else item).filter
    fun item => 0 < item.qty

/-! ## Record model and Delta Engine

The Python core is not part of the source tree, so the definitions below
are modelled from the spec (§3, §4.1, §4.3). -/

/-- Modelled from the spec: a scalar field value — string, number, boolean
or null (§3); numbers are decimal-exact (§4.1). -/
inductive Value where
  | str (s : String)
  | num (q : ℚ)
  | boolean (b : Bool)
  | null
deriving DecidableEq, Repr

/-- Modelled from the spec: a field name. -/
abbrev FieldName := String

/-- Modelled from the spec: a record is an ordered mapping from field name
to scalar value (§3). -/
abbrev Record := List (FieldName × Value)

/-- Modelled from the spec: a record key, a normalized string (§3). -/
abbrev Key := String

/-- First value stored under a field name, if any. -/
def lookupField : Record → FieldName → Option Value
  | [], _ => none
  | (g, v) :: rest, f => if g = f then some v else lookupField rest f

/-- Modelled from the spec: a field absent from a record reads as an
explicit null (§3, §9 schema-drift tolerance). -/
def getField (r : Record) (f : FieldName) : Value :=
  (lookupField r f).getD Value.null

/-- Field names appearing in a record. -/
def fieldNames (r : Record) : List FieldName := r.map Prod.fst

/-- Modelled from the spec: `diff_fields(a, b)` — for each field (of either
record) whose values differ, the pair (old value, new value); equal fields
are omitted (§4.1, §3). -/
def diffFields (a b : Record) : List (FieldName × Value × Value) :=
  (fieldNames a ++ fieldNames b).dedup.filterMap fun f =>
    if getField a f = getField b f then none else some (f, getField a f, getField b f)

/-- Modelled from the spec: one kind's collection inside a snapshot, a
mapping from key to record (§3). -/
abbrev Coll := List (Key × Record)

/-- First record stored under a key, if any. -/
def lookupRec : Coll → Key → Option Record
  | [], _ => none
  | (k, r) :: rest, key => if k = key then some r else lookupRec rest key

/-- Keys of a collection. -/
def collKeys (c : Coll) : List Key := c.map Prod.fst

/-- A collection's keys are unique — the ingestion invariant the Delta
Engine assumes (§3, §4.3). -/
abbrev keysNodup (c : Coll) : Prop := (collKeys c).Nodup

/-- Modelled from the spec: the Delta value — added, removed, and changed
sets for one kind (§3). -/
structure Delta where
  added : List (Key × Record)
  removed : List (Key × Record)
  changed : List (Key × List (FieldName × Value × Value))
deriving DecidableEq, Repr

/-- Modelled from the spec: the Delta Engine's comparison algorithm (§4.3):
added = current keys absent from previous, with the full current record;
removed = previous keys absent from current, with the full previous record;
changed = common keys with a non-empty field diff, with that diff. -/
def computeDelta (prev curr : Coll) : Delta where
  added := curr.filter fun kr => (lookupRec prev kr.1).isNone
  removed := prev.filter fun kr => (lookupRec curr kr.1).isNone
  changed := curr.filterMap fun kr =>
    match lookupRec prev kr.1 with
    | none => none
    | some pr => if diffFields pr kr.2 = [] then none else some (kr.1, diffFields pr kr.2)

/-! ## Snapshot store and run orchestrator (modelled from the spec, §4.2, §4.4) -/

/-- Modelled from the spec: an immutable timestamped capture of the three
record collections (§3). -/
structure Snapshot where
  timestamp : Nat
  categories : Coll
  products : Coll
  hierarchyEdges : Coll
deriving DecidableEq, Repr

/-- Modelled from the spec: the store's durable state — the snapshots
persisted so far (§4.2). -/
abbrev Store := List Snapshot

/-- Modelled from the spec: the fatal error taxonomy relevant to the store
(§7). -/
inductive StoreError where
  | duplicateTimestamp
  | missingSnapshot
deriving DecidableEq, Repr

/-- Modelled from the spec: `write_snapshot` persists a new snapshot, or
fails with `DuplicateTimestampError` when the timestamp already exists
(§4.2); on failure nothing is persisted. -/
def writeSnapshot (st : Store) (s : Snapshot) : Except StoreError Store :=
  if st.any fun t => t.timestamp == s.timestamp then .error .duplicateTimestamp
  else .ok (st ++ [s])

/-- The store state visible after a `write_snapshot` call: the new state on
success, the unchanged state on failure (§7: a failed write leaves no
partial snapshot behind). -/
def writeStore (st : Store) (s : Snapshot) : Store :=
  match writeSnapshot st s with
  | .ok st₁ => st₁
  | .error _ => st

/-- Modelled from the spec: `read_snapshot` loads the snapshot stored under
a handle (handles are timestamps, §4.2). -/
def readSnapshot (st : Store) (h : Nat) : Option Snapshot :=
  st.find? fun t => t.timestamp == h

/-- Modelled from the spec: `list_snapshots` — all handles sorted ascending
by timestamp, independent of storage order (§4.2). -/
def listSnapshots (st : Store) : List Nat :=
  List.insertionSort (· ≤ ·) (st.map Snapshot.timestamp)

/-- The handle immediately preceding `h` in a sorted handle sequence, none
when `h` comes first. -/
def prevHandle : List Nat → Nat → Option Nat
  | [], _ => none
  | [_], _ => none
  | x :: y :: rest, h =>
    if x = h then none else if y = h then some x else prevHandle (y :: rest) h

/-- Modelled from the spec: `previous_snapshot` — the handle immediately
preceding `h` in timestamp order, or none for the earliest known snapshot
(§4.2). -/
def previousSnapshot (st : Store) (h : Nat) : Option Nat :=
  prevHandle (listSnapshots st) h

/-- Modelled from the spec: a run either records the first-run marker or the
three per-kind deltas (§4.4, §7). -/
inductive RunOutcome where
  | firstRun
  | delta (categories products hierarchyEdges : Delta)
deriving DecidableEq, Repr

/-- Modelled from the spec: the Run Orchestrator (§4.4) — write the current
snapshot, resolve the previous one, and either emit the first-run marker or
run the Delta Engine per kind. -/
def orchestrate (st : Store) (s : Snapshot) : Except StoreError (Store × RunOutcome) :=
  match writeSnapshot st s with
  | .error e => .error e
  | .ok st₁ =>
    match previousSnapshot st₁ s.timestamp with
    | none => .ok (st₁, .firstRun)
    | some hp =>
      match readSnapshot st₁ hp with
      | none => .error .missingSnapshot
      | some prevSnap =>
        .ok (st₁, .delta (computeDelta prevSnap.categories s.categories)
            (computeDelta prevSnap.products s.products)
            (computeDelta prevSnap.hierarchyEdges s.hierarchyEdges))

/-- Keys classified as added. -/
def addedKeys (d : Delta) : List Key := d.added.map Prod.fst

/-- Keys classified as removed. -/
def removedKeys (d : Delta) : List Key := d.removed.map Prod.fst

/-- Keys classified as changed. -/
def changedKeys (d : Delta) : List Key := d.changed.map Prod.fst

/-- Modelled from the spec: the implicit fourth class of keys — present in
both snapshots with all fields equal, materialized in no delta set (§3). -/
def unchangedOmitted (prev curr : Coll) (k : Key) : Prop :=
  ∃ pr cr, lookupRec prev k = some pr ∧ lookupRec curr k = some cr ∧ diffFields pr cr = []

/-! ## Lemmas on the string primitives -/

/-- The pairwise and the flag-based formulations of whitespace collapsing
agree. -/
theorem collapseWs_eq_collapseGo (l : List Char) : collapseWs l = collapseGo false l := by
  induction l with
  | nil => rfl
  | cons c₁ t ih =>
    cases t with
    | nil => by_cases h : isJsWs c₁ <;> simp [collapseWs, collapseGo, h]
    | cons c₂ rest =>
      by_cases h1 : isJsWs c₁ <;> by_cases h2 : isJsWs c₂ <;>
        simp only [collapseWs, collapseGo, h1, h2, Bool.and_self, Bool.and_true,
          Bool.and_false, Bool.true_and, Bool.false_and, if_true, if_false] <;>
        rw [ih] <;> simp [collapseGo, h2]

/-- C3 (counterexample): `sanitize` is not just trim + collapse-whitespace +
lower-case: on the input `"A"` (with literal double quotes) the code also
strips the quotes, so it disagrees with the three-step normalization the
claim describes. -/
theorem sanitize_three_step_cex :
    sanitize ['"', 'A', '"'] ≠ normalizeSpec ['"', 'A', '"'] := by decide

/-- C3 (amended): record-key normalization (`sanitize`) is the
deterministic pure function consisting exactly of trimming
leading/trailing whitespace, stripping leading/trailing double-quote runs,
collapsing internal whitespace runs to a single space, and lower-casing
(in that order) — being a function of the input string alone, the same
input always yields the same key. -/
theorem sanitize_normalization (l : List Char) : sanitize l = normalizeSpecAmended l := by
  cases l with
  | nil => rfl
  | cons c t =>
    simp only [sanitize, normalizeSpecAmended, List.isEmpty_cons, if_false,
      Bool.false_eq_true, collapseWs_eq_collapseGo]

/-! ## Cart theorems -/

/-- C8: every cart item always has quantity at least 1 — starting from a
cart whose items all have `qty ≥ 1`, `addToCart` (new items get qty 1,
existing items are incremented), `changeQty` (the update is clamped at 1,
so no item is ever dropped: the length is preserved) and `removeFromCart`
all preserve the invariant. -/
theorem cart_qty_ge_one (cart : List CartItem) (p : Product) (productId delta : Int)
    (h : ∀ i ∈ cart, 1 ≤ i.qty) :
    (∀ i ∈ addToCart cart p, 1 ≤ i.qty) ∧
    (∀ i ∈ changeQty cart productId delta, 1 ≤ i.qty) ∧
    (changeQty cart productId delta).length = cart.length ∧
    (∀ i ∈ removeFromCart cart productId, 1 ≤ i.qty) := by
  refine ⟨?_, ?_, ?_, ?_⟩
  · intro i hi
    by_cases hc : cart.any fun item => item.product.id == p.id
    · simp only [addToCart, hc, if_true] at hi
      obtain ⟨j, hj, rfl⟩ := List.mem_map.1 hi
      by_cases hid : j.product.id == p.id
      · have := h j hj
        simp only [hid, if_true]
        omega
      · simp only [hid, if_false, Bool.false_eq_true]
        exact h j hj
    · simp only [addToCart, hc, if_false, Bool.false_eq_true, List.mem_append,
        List.mem_singleton] at hi
      rcases hi with hi | rfl
      · exact h i hi
      · simp
  · intro i hi
    simp only [changeQty, List.mem_filter, decide_eq_true_eq] at hi
    omega
  · rw [changeQty, List.filter_length_eq_length.2, List.length_map]
    intro i hi
    obtain ⟨j, hj, rfl⟩ := List.mem_map.1 hi
    have hq := h j hj
    by_cases hid : j.product.id == productId
    · simp only [hid, if_true]
      have : (1 : Int) ≤ max 1 (j.qty + delta) := le_max_left _ _
      simp only [decide_eq_true_eq]
      omega
    · simp only [hid, if_false, Bool.false_eq_true, decide_eq_true_eq]
      omega
  · intro i hi
    exact h i (List.mem_filter.1 hi).1

/-- C8 (witness): concrete instance — one item with qty 2, a decrement of 5
clamps at qty 1 and keeps the item in the cart (the length is unchanged). -/
theorem cart_qty_ge_one_witness :
    (changeQty [⟨⟨1, "a", "b", (10 : ℚ)⟩, 2⟩] 1 (-5)).length =
      ([⟨⟨1, "a", "b", (10 : ℚ)⟩, 2⟩] : List CartItem).length :=
  (cart_qty_ge_one [⟨⟨1, "a", "b", (10 : ℚ)⟩, 2⟩] ⟨1, "a", "b", (10 : ℚ)⟩ 1 (-5)
    (by decide)).2.2.1

/-- Helper: `changeQty` leaves the non-targeted sublist intact on carts
satisfying the quantity invariant. -/
theorem changeQty_filter_frame (productId delta : Int) :
    ∀ cart : List CartItem, (∀ i ∈ cart, 1 ≤ i.qty) →
      (changeQty cart productId delta).filter (fun i => i.product.id != productId) =
        cart.filter (fun i => i.product.id != productId) := by
  intro cart
  induction cart with
  | nil => intro _; rfl
  | cons i rest ih =>
    intro h
    have ihr := ih fun j hj => h j (by simp [hj])
    rw [changeQty, List.filter_filter] at ihr ⊢
    simp only [List.map_cons, List.filter_cons]
    simp only [beq_iff_eq] at ihr
    by_cases hid : i.product.id = productId
    · simp [hid, ihr]
    · have h1 := h i (by simp)
      have hpos : (0 : Int) < i.qty := by omega
      simp [hid, hpos, ihr]

/-- Helper: the increment branch of `addToCart` leaves the non-targeted
sublist intact. -/
theorem addToCart_map_frame (p : Product) :
    ∀ cart : List CartItem,
      (cart.map fun item =>
          if item.product.id == p.id then { item with qty := item.qty + 1 } else item).filter
          (fun i => i.product.id != p.id) =
        cart.filter (fun i => i.product.id != p.id) := by
  intro cart
  induction cart with
  | nil => rfl
  | cons i rest ih =>
    simp only [beq_iff_eq] at ih
    by_cases hid : i.product.id = p.id
    · simp [List.filter_cons, hid, ih]
    · simp [List.filter_cons, hid, ih]

/-- C10 (counterexample): the frame property does not hold for every cart —
`changeQty`'s trailing `filter(item.qty > 0)` runs over all items, so a
non-targeted item that (outside the qty ≥ 1 invariant) has qty 0 is dropped
rather than left unchanged. -/
theorem cart_frame_cex :
    ¬ (∀ i ∈ ([⟨⟨2, "s", "t", (10 : ℚ)⟩, 0⟩] : List CartItem), i.product.id ≠ 1 →
        i ∈ changeQty [⟨⟨2, "s", "t", (10 : ℚ)⟩, 0⟩] 1 1) := by decide

/-- C10 (amended): cart operations are local to the targeted product — for
every cart whose items all have qty ≥ 1 (the invariant the operations
maintain), `changeQty` and `removeFromCart` leave the sublist of items
whose id differs from `productId` exactly as it was, and `addToCart`
leaves the sublist of items whose id differs from `product.id` exactly as
it was. -/
theorem cart_frame (cart : List CartItem) (p : Product) (productId delta : Int)
    (h : ∀ i ∈ cart, 1 ≤ i.qty) :
    (changeQty cart productId delta).filter (fun i => i.product.id != productId) =
      cart.filter (fun i => i.product.id != productId) ∧
    (removeFromCart cart productId).filter (fun i => i.product.id != productId) =
      cart.filter (fun i => i.product.id != productId) ∧
    (addToCart cart p).filter (fun i => i.product.id != p.id) =
      cart.filter (fun i => i.product.id != p.id) := by
  refine ⟨changeQty_filter_frame productId delta cart h, ?_, ?_⟩
  · rw [removeFromCart, List.filter_filter]
    congr 1
    funext a
    exact Bool.and_self _
  · by_cases hc : cart.any fun item => item.product.id == p.id
    · simp only [addToCart, hc, if_true]
      exact addToCart_map_frame p cart
    · simp only [addToCart, hc, if_false, Bool.false_eq_true, List.filter_append]
      simp

/-! ## Fuzzy scoring theorems -/

/-- A sublist starting with a character different from the head of the
larger list must live entirely in its tail. -/
theorem sublist_cons_of_head_ne {x c : Char} {t cs : List Char} (hne : x ≠ c) :
    List.Sublist (x :: t) (c :: cs) ↔ List.Sublist (x :: t) cs := by
  constructor
  · intro hsub
    cases hsub with
    | cons _ hsub => exact hsub
    | cons₂ => exact absurd rfl hne
  · intro hsub
    exact hsub.cons c

/-- The greedy counter loop of `fuzzyScore` succeeds exactly when the
not-yet-matched part of the query is a subsequence of the remaining
string. -/
theorem runScan_iff (q : List Char) :
    ∀ (s : List Char) (i : Nat), i < q.length →
      (runScan q i s = true ↔ List.Sublist (q.drop i) s) := by
  intro s
  induction s with
  | nil =>
    intro i hi
    simp only [runScan, Bool.false_eq_true, false_iff]
    intro hsub
    have hlen := hsub.length_le
    simp only [List.length_drop, List.length_nil] at hlen
    omega
  | cons c cs ih =>
    intro i hi
    have hget : q[i]? = some (q.get ⟨i, hi⟩) := by
      simp [List.getElem?_eq_getElem hi]
    have hdrop : q.drop i = q.get ⟨i, hi⟩ :: q.drop (i + 1) := by
      rw [List.drop_eq_getElem_cons hi]
      simp
    by_cases hcx : q.get ⟨i, hi⟩ = c
    · have hcond : (q[i]? = some c) := by rw [hget, hcx]
      by_cases hlen : i + 1 = q.length
      · have : runScan q i (c :: cs) = true := by
          simp [runScan, hcond, hlen]
        rw [this, hdrop, hcx]
        have hnil : q.drop (i + 1) = [] := by
          rw [List.drop_eq_nil_iff]
          omega
        simp only [hnil, true_iff]
        exact List.cons_sublist_cons.2 (List.nil_sublist cs)
      · have hstep : runScan q i (c :: cs) = runScan q (i + 1) cs := by
          simp [runScan, hcond, hlen]
        rw [hstep, ih (i + 1) (by omega), hdrop, hcx]
        exact (List.cons_sublist_cons).symm
    · have hcond : ¬ (q[i]? = some c) := by
        rw [hget]
        simp only [Option.some.injEq]
        intro hbad
        exact hcx hbad
      have hne : i ≠ q.length := by omega
      have hstep : runScan q i (c :: cs) = runScan q i cs := by
        simp [runScan, hcond, hne]
      rw [hstep, ih i hi, hdrop, sublist_cons_of_head_ne hcx, ← hdrop]

/-- C9 (counterexample): `fuzzyScore` does not return 1 whenever the two
strings are equal after lower-casing — on two empty strings they are
trivially equal after lower-casing, yet the falsiness guard returns 0. -/
theorem fuzzyScore_exact_cex :
    jsToLower [] = jsToLower ([] : List Char) ∧ fuzzyScore [] [] ≠ scoreExact := by
  refine ⟨rfl, ?_⟩
  decide

/-- C9 (amended): for non-empty arguments, `fuzzyScore` scores 1 exactly on
lower-cased equality, at least 0.8 on a lower-cased contiguous substring,
at least 0.5 on a lower-cased in-order subsequence; it only ever returns
0, 0.5, 0.8 or 1, and is positive exactly when both arguments are
non-empty and the lower-cased query is a subsequence of the lower-cased
string. -/
theorem fuzzyScore_spec (str query : List Char) :
    (fuzzyScore str query = 0 ∨ fuzzyScore str query = scoreSubseq ∨
      fuzzyScore str query = scoreIncludes ∨ fuzzyScore str query = scoreExact) ∧
    (fuzzyScore str query = scoreExact ↔
      str ≠ [] ∧ query ≠ [] ∧ jsToLower str = jsToLower query) ∧
    (str ≠ [] → query ≠ [] → (jsToLower query <:+: jsToLower str) →
      scoreIncludes ≤ fuzzyScore str query) ∧
    (str ≠ [] → query ≠ [] → List.Sublist (jsToLower query) (jsToLower str) →
      scoreSubseq ≤ fuzzyScore str query) ∧
    (0 < fuzzyScore str query ↔
      str ≠ [] ∧ query ≠ [] ∧ List.Sublist (jsToLower query) (jsToLower str)) := by
  by_cases hstr : str = []
  · subst hstr
    simp [fuzzyScore, scoreExact]
  · by_cases hq : query = []
    · subst hq
      simp [fuzzyScore, List.isEmpty_iff, hstr, scoreExact]
    · have hempty : (str.isEmpty || query.isEmpty) = false := by
        simp [List.isEmpty_iff, hstr, hq]
      have hqlen : 0 < (jsToLower query).length := by
        simp [jsToLower]
        exact List.length_pos.2 hq
      have hscan := runScan_iff (jsToLower query) (jsToLower str) 0 hqlen
      rw [List.drop_zero] at hscan
      by_cases heq : jsToLower str = jsToLower query
      · have hval : fuzzyScore str query = scoreExact := by
          simp [fuzzyScore, hempty, heq]
        refine ⟨Or.inr (Or.inr (Or.inr hval)), by simp [hval, hstr, hq, heq], ?_, ?_, ?_⟩
        · intro _ _ _
          rw [hval]
          decide
        · intro _ _ _
          rw [hval]
          decide
        · rw [hval]
          simp only [hstr, hq, heq, ne_eq, not_false_iff, true_and]
          constructor
          · intro _
            exact List.Sublist.refl _
          · intro _
            decide
      · by_cases hinc : jsToLower query <:+: jsToLower str
        · have hval : fuzzyScore str query = scoreIncludes := by
            simp [fuzzyScore, hempty, heq, hinc]
          refine ⟨Or.inr (Or.inr (Or.inl hval)), ?_, ?_, ?_, ?_⟩
          · rw [hval]
            simp only [iff_def]
            constructor
            · intro hbad
              exact absurd hbad (by decide)
            · rintro ⟨-, -, h12⟩
              exact absurd h12 heq
          · intro _ _ _
            rw [hval]
          · intro _ _ _
            rw [hval]
            decide
          · rw [hval]
            simp only [hstr, hq, ne_eq, not_false_iff, true_and]
            constructor
            · intro _
              exact hinc.sublist
            · intro _
              decide
        · by_cases hscn : runScan (jsToLower query) 0 (jsToLower str) = true
          · have hval : fuzzyScore str query = scoreSubseq := by
              simp [fuzzyScore, hempty, heq, hinc, hscn]
            refine ⟨Or.inr (Or.inl hval), ?_, ?_, ?_, ?_⟩
            · rw [hval]
              simp only [iff_def]
              constructor
              · intro hbad
                exact absurd hbad (by decide)
              · rintro ⟨-, -, h12⟩
                exact absurd h12 heq
            · intro _ _ hbad
              exact absurd hbad hinc
            · intro _ _ _
              rw [hval]
            · rw [hval]
              simp only [hstr, hq, ne_eq, not_false_iff, true_and]
              constructor
              · intro _
                exact hscan.1 hscn
              · intro _
                decide
          · have hsub : ¬ List.Sublist (jsToLower query) (jsToLower str) := by
              intro hbad
              exact hscn (hscan.2 hbad)
            have hval : fuzzyScore str query = 0 := by
              simp [fuzzyScore, hempty, heq, hinc, hscn]
            refine ⟨Or.inl hval, ?_, ?_, ?_, ?_⟩
            · rw [hval]
              simp only [iff_def]
              constructor
              · intro hbad
                exact absurd hbad (by decide)
              · rintro ⟨-, -, h12⟩
                exact absurd h12 heq
            · intro _ _ hbad
              exact absurd hbad hinc
            · intro _ _ hbad
              exact absurd hbad hsub
            · rw [hval]
              simp only [lt_self_iff_false, false_iff, not_and]
              intro _ _
              exact hsub

/-- C9 (witness): on `"aXb"` versus `"Ab"` the lower-cased query `"ab"` is a
(non-contiguous) subsequence of `"axb"`, and the score is at least 0.5. -/
theorem fuzzyScore_spec_witness :
    scoreSubseq ≤ fuzzyScore ['a', 'X', 'b'] ['A', 'b'] := by
  have h1 : jsToLower ['A', 'b'] = ['a', 'b'] := by decide
  have h2 : jsToLower ['a', 'X', 'b'] = ['a', 'x', 'b'] := by decide
  refine (fuzzyScore_spec ['a', 'X', 'b'] ['A', 'b']).2.2.2.1 (by decide) (by decide) ?_
  rw [h1, h2]
  exact List.cons_sublist_cons.2 ((List.Sublist.refl ['b']).cons 'x')

/-- C10 (witness): concrete instance — on an invariant-satisfying cart,
incrementing product 1 leaves the sublist of other products unchanged. -/
theorem cart_frame_witness :
    (changeQty [⟨⟨2, "s", "t", (10 : ℚ)⟩, 1⟩] 1 3).filter (fun i => i.product.id != 1) =
      ([⟨⟨2, "s", "t", (10 : ℚ)⟩, 1⟩] : List CartItem).filter (fun i => i.product.id != 1) :=
  (cart_frame [⟨⟨2, "s", "t", (10 : ℚ)⟩, 1⟩] ⟨3, "u", "v", (5 : ℚ)⟩ 1 3 (by decide)).1

/-! ## Lemmas on records and collections -/

/-- A field name looks up to nothing exactly when it does not occur in the
record. -/
theorem lookupField_eq_none {r : Record} {f : FieldName} :
    lookupField r f = none ↔ f ∉ fieldNames r := by
  induction r with
  | nil => simp [lookupField, fieldNames]
  | cons gv rest ih =>
    obtain ⟨g, v⟩ := gv
    by_cases hg : g = f
    · subst hg
      simp [lookupField, fieldNames]
    · have hg₂ : ¬ f = g := fun h => hg h.symm
      simp [lookupField, fieldNames, hg, hg₂, ih]

/-- Membership in `diffFields`: exactly the fields whose values differ,
paired with the (previous, current) values. -/
theorem mem_diffFields {a b : Record} {f : FieldName} {vp vc : Value} :
    (f, vp, vc) ∈ diffFields a b ↔ getField a f = vp ∧ getField b f = vc ∧ vp ≠ vc := by
  constructor
  · intro h
    obtain ⟨g, _, hsome⟩ := List.mem_filterMap.1 h
    by_cases hv : getField a g = getField b g
    · simp [hv] at hsome
    · simp only [hv, if_false, Option.some.injEq, Prod.mk.injEq] at hsome
      obtain ⟨rfl, h1, h2⟩ := hsome
      exact ⟨h1, h2, by rw [← h1, ← h2]; exact hv⟩
  · rintro ⟨ha, hb, hne⟩
    apply List.mem_filterMap.2
    refine ⟨f, ?_, ?_⟩
    · rw [List.mem_dedup, List.mem_append]
      by_contra hno
      push_neg at hno
      have h1 : lookupField a f = none := lookupField_eq_none.2 hno.1
      have h2 : lookupField b f = none := lookupField_eq_none.2 hno.2
      apply hne
      rw [← ha, ← hb]
      simp [getField, h1, h2]
    · have hv : ¬ (getField a f = getField b f) := by
        rw [ha, hb]
        exact hne
      simp [hv, ha, hb]
      exact hne

/-- A record compared with itself has no differing fields. -/
theorem diffFields_self (r : Record) : diffFields r r = [] := by
  rw [diffFields, List.filterMap_eq_nil_iff]
  intro f _
  simp

/-- A key occurs in a collection exactly when it looks up to some record. -/
theorem mem_collKeys {c : Coll} {k : Key} :
    k ∈ collKeys c ↔ ∃ r, lookupRec c k = some r := by
  induction c with
  | nil => simp [collKeys, lookupRec]
  | cons kr rest ih =>
    obtain ⟨k₀, r₀⟩ := kr
    by_cases hk : k₀ = k
    · subst hk
      simp [collKeys, lookupRec]
    · have hk₂ : ¬ k = k₀ := fun h => hk h.symm
      simp only [collKeys, List.map_cons, List.mem_cons, hk₂, false_or, lookupRec, hk, if_false]
      simpa [collKeys] using ih

/-- A successful lookup is a member of the collection. -/
theorem lookupRec_mem {k : Key} {r : Record} :
    ∀ c : Coll, lookupRec c k = some r → (k, r) ∈ c := by
  intro c
  induction c with
  | nil => intro h; simp [lookupRec] at h
  | cons kr rest ih =>
    intro h
    obtain ⟨k₀, r₀⟩ := kr
    by_cases hk : k₀ = k
    · subst hk
      simp only [lookupRec, if_true, Option.some.injEq] at h
      simp [h]
    · simp only [lookupRec, hk, if_false] at h
      exact List.mem_cons_of_mem _ (ih h)

/-- With unique keys, membership determines the lookup. -/
theorem lookupRec_of_mem {k : Key} {r : Record} :
    ∀ c : Coll, keysNodup c → (k, r) ∈ c → lookupRec c k = some r := by
  intro c
  induction c with
  | nil => intro _ h; simp at h
  | cons kr rest ih =>
    intro hnd hmem
    obtain ⟨k₀, r₀⟩ := kr
    have hnd' : (collKeys ((k₀, r₀) :: rest)).Nodup := hnd
    simp only [collKeys, List.map_cons, List.nodup_cons] at hnd'
    rcases List.mem_cons.1 hmem with heq | hrest
    · obtain ⟨rfl, rfl⟩ : k = k₀ ∧ r = r₀ := by
        simpa [Prod.ext_iff] using heq
      simp [lookupRec]
    · have hk : k₀ ≠ k := by
        intro h
        subst h
        exact hnd'.1 (List.mem_map.2 ⟨(k₀, r), hrest, rfl⟩)
      simp only [lookupRec, hk, if_false]
      exact ih hnd'.2 hrest

/-- With unique keys, membership and lookup coincide. -/
theorem mem_iff_lookupRec {c : Coll} (hnd : keysNodup c) {k : Key} {r : Record} :
    (k, r) ∈ c ↔ lookupRec c k = some r :=
  ⟨lookupRec_of_mem c hnd, lookupRec_mem c⟩

/-! ## Lemmas on the Delta Engine -/

/-- Membership in the added set. -/
theorem mem_delta_added {prev curr : Coll} (hc : keysNodup curr) {k : Key} {r : Record} :
    (k, r) ∈ (computeDelta prev curr).added ↔
      lookupRec curr k = some r ∧ lookupRec prev k = none := by
  simp only [computeDelta, List.mem_filter, Option.isNone_iff_eq_none]
  rw [mem_iff_lookupRec hc]

/-- Membership in the removed set. -/
theorem mem_delta_removed {prev curr : Coll} (hp : keysNodup prev) {k : Key} {r : Record} :
    (k, r) ∈ (computeDelta prev curr).removed ↔
      lookupRec prev k = some r ∧ lookupRec curr k = none := by
  simp only [computeDelta, List.mem_filter, Option.isNone_iff_eq_none]
  rw [mem_iff_lookupRec hp]

/-- Membership in the changed set. -/
theorem mem_delta_changed {prev curr : Coll} (hc : keysNodup curr)
    {k : Key} {d : List (FieldName × Value × Value)} :
    (k, d) ∈ (computeDelta prev curr).changed ↔
      ∃ pr cr, lookupRec prev k = some pr ∧ lookupRec curr k = some cr ∧
        d = diffFields pr cr ∧ d ≠ [] := by
  constructor
  · intro h
    obtain ⟨⟨k₀, r₀⟩, hmem, hsome⟩ := List.mem_filterMap.1 h
    cases hl : lookupRec prev k₀ with
    | none => rw [hl] at hsome; simp at hsome
    | some pr =>
      rw [hl] at hsome
      by_cases hdf : diffFields pr r₀ = []
      · simp [hdf] at hsome
      · simp only [hdf, if_false, Option.some.injEq, Prod.mk.injEq] at hsome
        obtain ⟨rfl, rfl⟩ := hsome
        exact ⟨pr, r₀, hl, (mem_iff_lookupRec hc).1 hmem, rfl, hdf⟩
  · rintro ⟨pr, cr, hpr, hcr, rfl, hne⟩
    apply List.mem_filterMap.2
    refine ⟨(k, cr), (mem_iff_lookupRec hc).2 hcr, ?_⟩
    simp [hpr, hne]

/-- Keys of the added set. -/
theorem mem_addedKeys (prev curr : Coll) (hc : keysNodup curr) (k : Key) :
    k ∈ addedKeys (computeDelta prev curr) ↔
      (∃ r, lookupRec curr k = some r) ∧ lookupRec prev k = none := by
  simp only [addedKeys, List.mem_map]
  constructor
  · rintro ⟨⟨k₀, r⟩, hmem, rfl⟩
    have h := (mem_delta_added hc).1 hmem
    exact ⟨⟨r, h.1⟩, h.2⟩
  · rintro ⟨⟨r, hr⟩, hnone⟩
    exact ⟨(k, r), (mem_delta_added hc).2 ⟨hr, hnone⟩, rfl⟩

/-- Keys of the removed set. -/
theorem mem_removedKeys (prev curr : Coll) (hp : keysNodup prev) (k : Key) :
    k ∈ removedKeys (computeDelta prev curr) ↔
      (∃ r, lookupRec prev k = some r) ∧ lookupRec curr k = none := by
  simp only [removedKeys, List.mem_map]
  constructor
  · rintro ⟨⟨k₀, r⟩, hmem, rfl⟩
    have h := (mem_delta_removed hp).1 hmem
    exact ⟨⟨r, h.1⟩, h.2⟩
  · rintro ⟨⟨r, hr⟩, hnone⟩
    exact ⟨(k, r), (mem_delta_removed hp).2 ⟨hr, hnone⟩, rfl⟩

/-- Keys of the changed set. -/
theorem mem_changedKeys (prev curr : Coll) (hc : keysNodup curr) (k : Key) :
    k ∈ changedKeys (computeDelta prev curr) ↔
      ∃ pr cr, lookupRec prev k = some pr ∧ lookupRec curr k = some cr ∧
        diffFields pr cr ≠ [] := by
  simp only [changedKeys, List.mem_map]
  constructor
  · rintro ⟨⟨k₀, d⟩, hmem, rfl⟩
    obtain ⟨pr, cr, h1, h2, hd, hne⟩ := (mem_delta_changed hc).1 hmem
    exact ⟨pr, cr, h1, h2, hd ▸ hne⟩
  · rintro ⟨pr, cr, h1, h2, hne⟩
    exact ⟨(k, diffFields pr cr), (mem_delta_changed hc).2 ⟨pr, cr, h1, h2, rfl, hne⟩, rfl⟩

/-! ## Delta Engine claim theorems -/

/-- C1: for every pair of snapshots (with the ingestion invariant of unique
keys) the Delta Engine classifies keys exactly as: added = keys in the
current collection and not the previous, paired with the full current
record; removed = keys in the previous collection and not the current,
paired with the full previous record; changed = keys in both whose records
differ on at least one field, paired with, for each differing field only,
the (previous value, current value) pair — equal fields are omitted from
the detail. -/
theorem deltaEngine_classification (prev curr : Coll)
    (hp : keysNodup prev) (hc : keysNodup curr) :
    (∀ k r, (k, r) ∈ (computeDelta prev curr).added ↔
        lookupRec curr k = some r ∧ lookupRec prev k = none) ∧
    (∀ k r, (k, r) ∈ (computeDelta prev curr).removed ↔
        lookupRec prev k = some r ∧ lookupRec curr k = none) ∧
    (∀ k d, (k, d) ∈ (computeDelta prev curr).changed ↔
        ∃ pr cr, lookupRec prev k = some pr ∧ lookupRec curr k = some cr ∧
          d = diffFields pr cr ∧ d ≠ []) ∧
    (∀ (a b : Record) (f : FieldName) (vp vc : Value),
        (f, vp, vc) ∈ diffFields a b ↔
          getField a f = vp ∧ getField b f = vc ∧ vp ≠ vc) :=
  ⟨fun _ _ => mem_delta_added hc, fun _ _ => mem_delta_removed hp,
   fun _ _ => mem_delta_changed hc, fun _ _ _ _ _ => mem_diffFields⟩

/-- C1 (witness): the spec's concrete scenario — previous product
`{id: 5, sku: "A1", price: 10}`, current product with price 25/2 (12.5);
the delta's changed set contains key "5" with only the price pair, `sku`
and `id` being omitted since unchanged. -/
theorem deltaEngine_classification_witness :
    ("5", [("price", Value.num 10, Value.num (Rat.mk' 25 2 (by decide) (by decide)))]) ∈
      (computeDelta
        [("5", [("id", Value.num 5), ("sku", Value.str "A1"), ("price", Value.num 10)])]
        [("5", [("id", Value.num 5), ("sku", Value.str "A1"),
          ("price", Value.num (Rat.mk' 25 2 (by decide) (by decide)))])]).changed := by
  apply ((deltaEngine_classification
    [("5", [("id", Value.num 5), ("sku", Value.str "A1"), ("price", Value.num 10)])]
    [("5", [("id", Value.num 5), ("sku", Value.str "A1"),
      ("price", Value.num (Rat.mk' 25 2 (by decide) (by decide)))])]
    (by decide) (by decide)).2.2.1 "5" _).2
  exact ⟨[("id", Value.num 5), ("sku", Value.str "A1"), ("price", Value.num 10)],
    [("id", Value.num 5), ("sku", Value.str "A1"),
      ("price", Value.num (Rat.mk' 25 2 (by decide) (by decide)))],
    by decide, by decide, by decide, by decide⟩

/-- C2: the three key sets are pairwise disjoint; every key of either
snapshot falls in exactly one of added / removed / changed /
unchanged-and-omitted; a record equal in both snapshots appears in no
delta set. -/
theorem deltaEngine_partition (prev curr : Coll)
    (hp : keysNodup prev) (hc : keysNodup curr) :
    (∀ k, ¬ (k ∈ addedKeys (computeDelta prev curr) ∧
        k ∈ removedKeys (computeDelta prev curr))) ∧
    (∀ k, ¬ (k ∈ addedKeys (computeDelta prev curr) ∧
        k ∈ changedKeys (computeDelta prev curr))) ∧
    (∀ k, ¬ (k ∈ removedKeys (computeDelta prev curr) ∧
        k ∈ changedKeys (computeDelta prev curr))) ∧
    (∀ k, k ∈ collKeys prev ∨ k ∈ collKeys curr →
      (k ∈ addedKeys (computeDelta prev curr) ∧
          k ∉ removedKeys (computeDelta prev curr) ∧
          k ∉ changedKeys (computeDelta prev curr) ∧ ¬ unchangedOmitted prev curr k) ∨
      (k ∈ removedKeys (computeDelta prev curr) ∧
          k ∉ addedKeys (computeDelta prev curr) ∧
          k ∉ changedKeys (computeDelta prev curr) ∧ ¬ unchangedOmitted prev curr k) ∨
      (k ∈ changedKeys (computeDelta prev curr) ∧
          k ∉ addedKeys (computeDelta prev curr) ∧
          k ∉ removedKeys (computeDelta prev curr) ∧ ¬ unchangedOmitted prev curr k) ∨
      (unchangedOmitted prev curr k ∧ k ∉ addedKeys (computeDelta prev curr) ∧
          k ∉ removedKeys (computeDelta prev curr) ∧
          k ∉ changedKeys (computeDelta prev curr))) ∧
    (∀ k r, lookupRec prev k = some r → lookupRec curr k = some r →
      k ∉ addedKeys (computeDelta prev curr) ∧
        k ∉ removedKeys (computeDelta prev curr) ∧
        k ∉ changedKeys (computeDelta prev curr)) := by
  have hA := mem_addedKeys prev curr hc
  have hR := mem_removedKeys prev curr hp
  have hC := mem_changedKeys prev curr hc
  refine ⟨?_, ?_, ?_, ?_, ?_⟩
  · rintro k ⟨ha, hr⟩
    obtain ⟨-, hpn⟩ := (hA k).1 ha
    obtain ⟨⟨r, hps⟩, -⟩ := (hR k).1 hr
    rw [hpn] at hps
    exact Option.noConfusion hps
  · rintro k ⟨ha, hch⟩
    obtain ⟨-, hpn⟩ := (hA k).1 ha
    obtain ⟨pr, -, hps, -, -⟩ := (hC k).1 hch
    rw [hpn] at hps
    exact Option.noConfusion hps
  · rintro k ⟨hr, hch⟩
    obtain ⟨-, hcn⟩ := (hR k).1 hr
    obtain ⟨-, cr, -, hcs, -⟩ := (hC k).1 hch
    rw [hcn] at hcs
    exact Option.noConfusion hcs
  · intro k hk
    cases hlp : lookupRec prev k with
    | none =>
      cases hlc : lookupRec curr k with
      | none =>
        exfalso
        rcases hk with hk | hk
        · obtain ⟨r, hr⟩ := mem_collKeys.1 hk
          rw [hlp] at hr
          exact Option.noConfusion hr
        · obtain ⟨r, hr⟩ := mem_collKeys.1 hk
          rw [hlc] at hr
          exact Option.noConfusion hr
      | some cr =>
        refine Or.inl ⟨(hA k).2 ⟨⟨cr, hlc⟩, hlp⟩, ?_, ?_, ?_⟩
        · intro hbad
          obtain ⟨⟨r, hps⟩, -⟩ := (hR k).1 hbad
          rw [hlp] at hps
          exact Option.noConfusion hps
        · intro hbad
          obtain ⟨pr, -, hps, -, -⟩ := (hC k).1 hbad
          rw [hlp] at hps
          exact Option.noConfusion hps
        · rintro ⟨pr, -, hps, -, -⟩
          rw [hlp] at hps
          exact Option.noConfusion hps
    | some pr =>
      cases hlc : lookupRec curr k with
      | none =>
        refine Or.inr (Or.inl ⟨(hR k).2 ⟨⟨pr, hlp⟩, hlc⟩, ?_, ?_, ?_⟩)
        · intro hbad
          obtain ⟨-, hpn⟩ := (hA k).1 hbad
          rw [hlp] at hpn
          exact Option.noConfusion hpn
        · intro hbad
          obtain ⟨-, cr, -, hcs, -⟩ := (hC k).1 hbad
          rw [hlc] at hcs
          exact Option.noConfusion hcs
        · rintro ⟨-, cr, -, hcs, -⟩
          rw [hlc] at hcs
          exact Option.noConfusion hcs
      | some cr =>
        by_cases hdf : diffFields pr cr = []
        · refine Or.inr (Or.inr (Or.inr ⟨⟨pr, cr, hlp, hlc, hdf⟩, ?_, ?_, ?_⟩))
          · intro hbad
            obtain ⟨-, hpn⟩ := (hA k).1 hbad
            rw [hlp] at hpn
            exact Option.noConfusion hpn
          · intro hbad
            obtain ⟨-, hcn⟩ := (hR k).1 hbad
            rw [hlc] at hcn
            exact Option.noConfusion hcn
          · intro hbad
            obtain ⟨pr', cr', hps, hcs, hne⟩ := (hC k).1 hbad
            rw [hlp] at hps
            rw [hlc] at hcs
            cases hps
            cases hcs
            exact hne hdf
        · refine Or.inr (Or.inr (Or.inl ⟨(hC k).2 ⟨pr, cr, hlp, hlc, hdf⟩, ?_, ?_, ?_⟩))
          · intro hbad
            obtain ⟨-, hpn⟩ := (hA k).1 hbad
            rw [hlp] at hpn
            exact Option.noConfusion hpn
          · intro hbad
            obtain ⟨-, hcn⟩ := (hR k).1 hbad
            rw [hlc] at hcn
            exact Option.noConfusion hcn
          · rintro ⟨pr', cr', hps, hcs, hdf'⟩
            rw [hlp] at hps
            rw [hlc] at hcs
            cases hps
            cases hcs
            exact hdf hdf'
  · intro k r h1 h2
    refine ⟨?_, ?_, ?_⟩
    · intro hbad
      obtain ⟨-, hpn⟩ := (hA k).1 hbad
      rw [h1] at hpn
      exact Option.noConfusion hpn
    · intro hbad
      obtain ⟨-, hcn⟩ := (hR k).1 hbad
      rw [h2] at hcn
      exact Option.noConfusion hcn
    · intro hbad
      obtain ⟨pr, cr, hps, hcs, hne⟩ := (hC k).1 hbad
      rw [h1] at hps
      rw [h2] at hcs
      cases hps
      cases hcs
      exact hne (diffFields_self r)

/-- C2 (witness): the spec's concrete scenario — category 10 "Dairy" is
unchanged between the snapshots and appears in no delta key set; category
11 "Bakery" is only in the current snapshot. -/
theorem deltaEngine_partition_witness :
    "10" ∉ changedKeys (computeDelta
      [("10", [("name", Value.str "Dairy")])]
      [("10", [("name", Value.str "Dairy")]), ("11", [("name", Value.str "Bakery")])]) :=
  ((deltaEngine_partition
      [("10", [("name", Value.str "Dairy")])]
      [("10", [("name", Value.str "Dairy")]), ("11", [("name", Value.str "Bakery")])]
      (by decide) (by decide)).2.2.2.2 "10" [("name", Value.str "Dairy")]
      (by decide) (by decide)).2.2

/-- C4: the Delta Engine is deterministic — two runs of the delta
computation on the same pair of snapshots yield identical added, removed
and changed lists (identical elements in identical order); the engine is a
pure function of its two inputs. -/
theorem deltaEngine_deterministic (prev curr : Coll) (d₁ d₂ : Delta)
    (h₁ : d₁ = computeDelta prev curr) (h₂ : d₂ = computeDelta prev curr) :
    d₁.added = d₂.added ∧ d₁.removed = d₂.removed ∧ d₁.changed = d₂.changed := by
  subst h₁
  subst h₂
  exact ⟨rfl, rfl, rfl⟩

/-- C4 (witness): two runs on a concrete pair of snapshots agree. -/
theorem deltaEngine_deterministic_witness :
    (computeDelta [("1", [("a", Value.num 1)])] []).added =
        (computeDelta [("1", [("a", Value.num 1)])] []).added ∧
      (computeDelta [("1", [("a", Value.num 1)])] []).removed =
        (computeDelta [("1", [("a", Value.num 1)])] []).removed ∧
      (computeDelta [("1", [("a", Value.num 1)])] []).changed =
        (computeDelta [("1", [("a", Value.num 1)])] []).changed :=
  deltaEngine_deterministic [("1", [("a", Value.num 1)])] [] _ _ rfl rfl

/-! ## Snapshot store theorems -/

/-- C5: snapshot persistence round-trips — reading back a successfully
written snapshot under its timestamp returns the identical snapshot value,
field for field (the model stores exact values, so there is no precision
loss and no reordering). -/
theorem snapshot_roundtrip (st : Store) (s : Snapshot) (st₁ : Store)
    (hw : writeSnapshot st s = Except.ok st₁) :
    readSnapshot st₁ s.timestamp = some s := by
  rw [writeSnapshot] at hw
  by_cases hany : (st.any fun t => t.timestamp == s.timestamp) = true
  · rw [if_pos hany] at hw
    exact Except.noConfusion hw
  · rw [if_neg hany] at hw
    injection hw with hst
    subst hst
    rw [readSnapshot, List.find?_append]
    have hnone : st.find? (fun t => t.timestamp == s.timestamp) = none := by
      rw [List.find?_eq_none]
      intro x hx hbad
      exact hany (List.any_eq_true.2 ⟨x, hx, hbad⟩)
    rw [hnone]
    simp [List.find?_cons]

/-- C5 (witness): writing a concrete snapshot into the empty store and
reading it back returns it unchanged. -/
theorem snapshot_roundtrip_witness :
    readSnapshot [⟨1, [("10", [("name", Value.str "Dairy")])], [], []⟩]
        (1 : Nat) = some ⟨1, [("10", [("name", Value.str "Dairy")])], [], []⟩ :=
  snapshot_roundtrip [] ⟨1, [("10", [("name", Value.str "Dairy")])], [], []⟩
    [⟨1, [("10", [("name", Value.str "Dairy")])], [], []⟩] (by rfl)

/-- The earliest handle has no predecessor. -/
theorem prevHandle_head (x : Nat) (t : List Nat) : prevHandle (x :: t) x = none := by
  cases t with
  | nil => rfl
  | cons y rest => simp [prevHandle]

/-- In a duplicate-free handle sequence, the handle right before `b`
is returned as its predecessor. -/
theorem prevHandle_adj : ∀ (l₁ : List Nat) (a b : Nat) (l₂ : List Nat),
    (l₁ ++ a :: b :: l₂).Nodup → prevHandle (l₁ ++ a :: b :: l₂) b = some a := by
  intro l₁
  induction l₁ with
  | nil =>
    intro a b l₂ hnd
    have hab : a ≠ b := by
      intro h
      subst h
      exact (List.nodup_cons.1 (List.nodup_cons.1 hnd).2).1
        ((List.nodup_cons.1 hnd).1 (List.mem_cons_self _ _)).elim
    simp [prevHandle, hab]
  | cons x t ih =>
    intro a b l₂ hnd
    simp only [List.cons_append] at hnd ⊢
    obtain ⟨hx, hndt⟩ := List.nodup_cons.1 hnd
    have hxb : x ≠ b := by
      intro h
      subst h
      exact hx (List.mem_append.2 (Or.inr (by simp)))
    cases t with
    | nil =>
      simp only [List.nil_append] at hndt ⊢
      have hab : a ≠ b := by
        intro h
        subst h
        exact (List.nodup_cons.1 hndt).1 (List.mem_cons_self _ _)
      simp [prevHandle, hxb, hab]
    | cons z t₂ =>
      simp only [List.cons_append] at hndt ⊢
      have hzb : z ≠ b := by
        intro h
        subst h
        exact (List.nodup_cons.1 hndt).1 (List.mem_append.2 (Or.inr (by simp)))
      have hstep : prevHandle (x :: z :: (t₂ ++ a :: b :: l₂)) b =
          prevHandle (z :: (t₂ ++ a :: b :: l₂)) b := by
        simp only [prevHandle, hxb, if_false]
        by_cases hz : z = b
        · exact absurd hz hzb
        · cases ht₂ : t₂ ++ a :: b :: l₂ with
          | nil => exact absurd (List.append_eq_nil.1 ht₂).2 (by simp)
          | cons w ws => simp [hz]
      rw [hstep]
      have := ih a b l₂ hndt
      simpa using this

/-- In a duplicate-free handle sequence containing `h`, the predecessor is
`none` exactly when `h` is the first handle. -/
theorem prevHandle_eq_none_iff (h : Nat) : ∀ l : List Nat, l.Nodup → h ∈ l →
    (prevHandle l h = none ↔ l.head? = some h) := by
  intro l
  induction l with
  | nil => intro _ hm; simp at hm
  | cons x t ih =>
    intro hnd hm
    by_cases hx : x = h
    · subst hx
      simp [prevHandle_head]
    · have hmt : h ∈ t := (List.mem_cons.1 hm).resolve_left fun hh => hx hh.symm
      cases t with
      | nil => simp at hmt
      | cons y rest =>
        by_cases hy : y = h
        · subst hy
          simp [prevHandle, hx]
        · have ihres := ih (List.nodup_cons.1 hnd).2 hmt
          have hstep : prevHandle (x :: y :: rest) h = prevHandle (y :: rest) h := by
            simp [prevHandle, hx, hy]
          rw [hstep, ihres]
          simp [hx, hy]

/-- C6: `listSnapshots` is the timestamp-ascending ordering of the store's
snapshots, and `previousSnapshot` returns the handle immediately preceding
the given one in that ordering, with `none` (not an error) exactly when the
handle is the earliest; when the store after a write holds a single
snapshot, the orchestrator records the first-run marker instead of a
delta. -/
theorem previousSnapshot_spec (st : Store) (hnd : (listSnapshots st).Nodup) :
    List.Sorted (· ≤ ·) (listSnapshots st) ∧
    List.Perm (listSnapshots st) (st.map Snapshot.timestamp) ∧
    (∀ (l₁ : List Nat) (a b : Nat) (l₂ : List Nat),
      listSnapshots st = l₁ ++ a :: b :: l₂ → previousSnapshot st b = some a) ∧
    (∀ h, h ∈ listSnapshots st →
      (previousSnapshot st h = none ↔ (listSnapshots st).head? = some h)) ∧
    (∀ (s : Snapshot) (st₀ st₁ : Store) (o : RunOutcome),
      orchestrate st₀ s = Except.ok (st₁, o) → listSnapshots st₁ = [s.timestamp] →
      o = RunOutcome.firstRun) := by
  refine ⟨List.sorted_insertionSort _ _, List.perm_insertionSort _ _, ?_, ?_, ?_⟩
  · intro l₁ a b l₂ heq
    rw [previousSnapshot, heq]
    exact prevHandle_adj l₁ a b l₂ (heq ▸ hnd)
  · intro h hm
    rw [previousSnapshot]
    exact prevHandle_eq_none_iff h (listSnapshots st) hnd hm
  · intro s st₀ st₁ o ho hsingle
    unfold orchestrate at ho
    cases hw : writeSnapshot st₀ s with
    | error e =>
      rw [hw] at ho
      exact Except.noConfusion ho
    | ok stw =>
      rw [hw] at ho
      dsimp only at ho
      cases hps : previousSnapshot stw s.timestamp with
      | none =>
        rw [hps] at ho
        injection ho with hpair
        exact (congrArg Prod.snd hpair).symm
      | some hp =>
        rw [hps] at ho
        dsimp only at ho
        cases hr : readSnapshot stw hp with
        | none =>
          rw [hr] at ho
          exact Except.noConfusion ho
        | some prevSnap =>
          rw [hr] at ho
          injection ho with hpair
          have hst : stw = st₁ := congrArg Prod.fst hpair
          exfalso
          rw [← hst] at hsingle
          rw [previousSnapshot, hsingle] at hps
          simp [prevHandle] at hps

/-- C6 (witness): a store holding timestamps 2 and 1 (in that storage
order) lists them ascending as [1, 2], and the previous snapshot of handle
2 is handle 1. -/
theorem previousSnapshot_spec_witness :
    previousSnapshot [⟨2, [], [], []⟩, ⟨1, [], [], []⟩] 2 = some 1 :=
  (previousSnapshot_spec [⟨2, [], [], []⟩, ⟨1, [], [], []⟩]
    (by decide)).2.2.1 [] 1 2 [] (by decide)

/-- C7: `write_snapshot` fails with `DuplicateTimestampError` exactly when
a snapshot with the same timestamp is already stored, and on that failure
the store the callers observe is unchanged: the same handle listing and
the same predecessor resolution. -/
theorem writeSnapshot_duplicate (st : Store) (s : Snapshot) :
    (writeSnapshot st s = Except.error StoreError.duplicateTimestamp ↔
      ∃ t ∈ st, t.timestamp = s.timestamp) ∧
    (writeSnapshot st s = Except.error StoreError.duplicateTimestamp →
      writeStore st s = st ∧
      listSnapshots (writeStore st s) = listSnapshots st ∧
      ∀ h, previousSnapshot (writeStore st s) h = previousSnapshot st h) := by
  have hmain : writeSnapshot st s = Except.error StoreError.duplicateTimestamp ↔
      ∃ t ∈ st, t.timestamp = s.timestamp := by
    rw [writeSnapshot]
    by_cases hany : (st.any fun t => t.timestamp == s.timestamp) = true
    · rw [if_pos hany]
      constructor
      · intro _
        obtain ⟨t, ht, hbeq⟩ := List.any_eq_true.1 hany
        exact ⟨t, ht, by simpa using hbeq⟩
      · intro _
        rfl
    · rw [if_neg hany]
      constructor
      · intro hbad
        exact Except.noConfusion hbad
      · rintro ⟨t, ht, hts⟩
        exact absurd (List.any_eq_true.2 ⟨t, ht, by simpa using hts⟩) hany
  refine ⟨hmain, fun herr => ?_⟩
  have hws : writeStore st s = st := by
    unfold writeStore
    rw [herr]
  exact ⟨hws, by rw [hws], fun h => by rw [hws]⟩

/-- C7 (witness): writing a snapshot whose timestamp 1 already exists fails
with the duplicate error and leaves the listing unchanged. -/
theorem writeSnapshot_duplicate_witness :
    writeSnapshot [⟨1, [], [], []⟩] ⟨1, [("k", [])], [], []⟩ =
        Except.error StoreError.duplicateTimestamp ∧
      listSnapshots (writeStore [⟨1, [], [], []⟩] ⟨1, [("k", [])], [], []⟩) =
        listSnapshots [⟨1, [], [], []⟩] := by
  have h := writeSnapshot_duplicate [⟨1, [], [], []⟩] ⟨1, [("k", [])], [], []⟩
  have herr := h.1.2 ⟨⟨1, [], [], []⟩, by simp, rfl⟩
  exact ⟨herr, (h.2 herr).2.1⟩

end Rimon
